import Mathlib

/-!
Shallow embedding of the foxtail in-process job queue (src/src/lib.rs).

Modelling choices:
* `SystemTime` values are modelled as `Nat`; since `SystemTime::now()` is an
  effect, every operation that reads the clock takes the current time `now`
  as an explicit argument.
* The `VecDeque<Job>` store is modelled as a `List Job` (front of the list
  is the front of the deque; `push_back` appends at the tail).
* Methods taking `&self` behind the `Mutex` are modelled as state
  transformers `InMemQueue → ... → result × InMemQueue`; a body that never
  mutates the locked deque returns the store unchanged.
* `Result<(), String>` is modelled as `Except String Unit`.
* The lock itself (and its poisoning) is not modelled: the embedding is the
  sequential behaviour of each operation's body while holding the lock.
-/

namespace Foxtail

/-- Job status enumeration from `pub enum JobStatus`. -/
inductive JobStatus where
  | PENDING
  | PICKED
  | PROCESSED
  | FAILED
deriving DecidableEq, Repr

/-- The `Job` record from `pub struct Job`: `id: u32`, `status`,
`payload: Vec<u8>`, `timestamp: SystemTime`, `heartbeat: SystemTime`.
Times are `Nat`; payload bytes are `Nat`s (no arithmetic is ever done on
them, so no wrap-around modelling is needed). -/
structure Job where
  id : Nat
  status : JobStatus
  payload : List Nat
  timestamp : Nat
  heartbeat : Nat
deriving DecidableEq, Repr

namespace Job

/-- `Job::new(id, payload)`: captures `now = SystemTime::now()` (passed
explicitly here), copies the payload (`payload.to_vec()`), status PENDING,
timestamp and heartbeat both set to `now`. -/
def new (id : Nat) (payload : List Nat) (now : Nat) : Job :=
  { id := id
    status := JobStatus.PENDING
    payload := payload
    timestamp := now
    heartbeat := now }

/-- `Job::update_heartbeat(&mut self)`: sets `heartbeat` to the current
time (passed explicitly). -/
def update_heartbeat (j : Job) (now : Nat) : Job :=
  { j with heartbeat := now }

/-- Accessor `Job::get_id`. -/
def get_id (j : Job) : Nat := j.id

/-- Accessor `Job::get_status`. -/
def get_status (j : Job) : JobStatus := j.status

/-- Accessor `Job::timestamp`. -/
def get_timestamp (j : Job) : Nat := j.timestamp

/-- Accessor `Job::heartbeat`. -/
def get_heartbeat (j : Job) : Nat := j.heartbeat

end Job

/-- The in-memory queue store: the `VecDeque<Job>` inside
`InMemQueue.jobs` (the `Arc<Mutex<..>>` wrapper is the lock, not state). -/
abbrev InMemQueue := List Job

namespace InMemQueue

/-- `InMemQueue::new()`: an empty store. -/
def new : InMemQueue := []

/-- `InMemQueue::enqueue(&self, j)`: locks, `push_back(j)`, returns `Ok(())`.
Result paired with the post-state of the store. -/
def enqueue (q : InMemQueue) (j : Job) : Except String Unit × InMemQueue :=
  (Except.ok (), q ++ [j])

/-- `InMemQueue::get(&self, id_job)`: locks, finds the position of the first
job whose `id` equals `id_job` (`iter().position(..)`), returns a clone of
the element at that position (`queue.get(pos).cloned()`), else `None`.
The body never mutates the store, so the post-state is the input store. -/
def get (q : InMemQueue) (id_job : Nat) : Option Job × InMemQueue :=
  match q.findIdx? (fun job => job.id == id_job) with
  | some pos => (q.get? pos, q)
  | none => (none, q)

/-- `InMemQueue::dequeue(&self, id_job)`: locks, finds the position of the
first job whose `id` equals `id_job`; if found, `queue.remove(pos)` and
`Ok(())`; otherwise `Err("Job with ID {id} not found")`. -/
def dequeue (q : InMemQueue) (id_job : Nat) : Except String Unit × InMemQueue :=
  match q.findIdx? (fun job => job.id == id_job) with
  | some pos => (Except.ok (), q.eraseIdx pos)
  | none => (Except.error ("Job with ID " ++ toString id_job ++ " not found"), q)

/-- `InMemQueue::len(&self)`: locks and returns `queue.len()`; the store is
not mutated. -/
def len (q : InMemQueue) : Nat := q.length

end InMemQueue

/-! ## Helper lemmas about the scan underlying `get` and `dequeue` -/

/-- Looking up the element at the index found by `findIdx?` is exactly
`find?`: the `position`-then-`get(pos).cloned()` pattern of the source
returns the first element satisfying the predicate. -/
theorem lookup_findIdx_eq_find (p : Job → Bool) (q : List Job) :
    (match q.findIdx? p with
     | some pos => q.get? pos
     | none => none) = q.find? p := by
  induction q with
  | nil => rfl
  | cons a q ih =>
    cases ha : p a with
    | true => simp [List.findIdx?_cons, List.find?_cons, ha]
    | false =>
      have h1 : (a :: q).findIdx? p = Option.map (fun i => i + 1) (q.findIdx? p) := by
        rw [List.findIdx?_cons, ha]
        simp only [Bool.false_eq_true, if_false]
        exact List.findIdx?_succ
      have h2 : (a :: q).find? p = q.find? p := by
        simp [List.find?_cons, ha]
      rw [h1, h2]
      cases hfi : q.findIdx? p with
      | none =>
        rw [hfi] at ih
        simpa using ih
      | some i =>
        rw [hfi] at ih
        simpa using ih

/-- A successful `findIdx?` splits the list at the first match: everything
before the found position fails the predicate, the element there satisfies
it, and `eraseIdx` at that position removes exactly that element. -/
theorem findIdx_split (p : Job → Bool) (q : List Job) (pos : Nat)
    (h : q.findIdx? p = some pos) :
    ∃ l1 j l2, q = l1 ++ j :: l2 ∧ l1.length = pos ∧ p j = true ∧
      (∀ x ∈ l1, p x = false) ∧ q.eraseIdx pos = l1 ++ l2 := by
  induction q generalizing pos with
  | nil => simp [List.findIdx?_nil] at h
  | cons a q ih =>
    rw [List.findIdx?_cons] at h
    cases ha : p a with
    | true =>
      simp only [ha, if_true] at h
      cases h
      exact ⟨[], a, q, rfl, rfl, ha, by simp, by simp⟩
    | false =>
      rw [ha] at h
      simp only [Bool.false_eq_true, if_false] at h
      rw [List.findIdx?_succ, Option.map_eq_some'] at h
      obtain ⟨i, hi, hpos⟩ := h
      obtain ⟨l1, j, l2, hq, hlen, hpj, hl1, her⟩ := ih i hi
      refine ⟨a :: l1, j, l2, by simp [hq], by simp [hlen, hpos], hpj, ?_, ?_⟩
      · intro x hx
        rcases List.mem_cons.mp hx with hx | hx
        · cases hx; exact ha
        · exact hl1 x hx
      · rw [← hpos]
        simpa [hq] using her

/-- The id-matching predicate used throughout `get` and `dequeue`. -/
theorem matches_false_iff (id : Nat) (j : Job) :
    ((fun job : Job => job.id == id) j = false) ↔ j.id ≠ id := by
  simp

/-- The first component of `get` is `find?` of the id predicate. -/
theorem get_fst_eq_find (q : InMemQueue) (id : Nat) :
    (InMemQueue.get q id).1 = q.find? (fun job => job.id == id) := by
  rw [← lookup_findIdx_eq_find (fun job => job.id == id) q]
  unfold InMemQueue.get
  cases q.findIdx? (fun job => job.id == id) <;> rfl

/-- `get` returns `none` exactly when no stored job has the id. -/
theorem get_fst_eq_none_iff (q : InMemQueue) (id : Nat) :
    (InMemQueue.get q id).1 = none ↔ ∀ j ∈ q, j.id ≠ id := by
  rw [get_fst_eq_find, List.find?_eq_none]
  constructor
  · intro h j hj
    exact (matches_false_iff id j).mp (Bool.not_eq_true _ ▸ (by simpa using h j hj))
  · intro h j hj
    simp [h j hj]

/-- The store is unchanged by `get` (its body never mutates the deque). -/
theorem get_snd_eq (q : InMemQueue) (id : Nat) :
    (InMemQueue.get q id).2 = q := by
  unfold InMemQueue.get
  cases q.findIdx? (fun job => job.id == id) <;> rfl

/-! ## Theorems -/

/-- C8: for every id and every byte sequence (including the empty one),
`Job::new` succeeds (it is a total function), copies the payload bytes,
sets status to PENDING, and captures the current time as both `timestamp`
and `heartbeat`, which are therefore equal at construction. -/
theorem job_new_spec (id : Nat) (payload : List Nat) (now : Nat) :
    (Job.new id payload now).get_id = id ∧
    (Job.new id payload now).get_status = JobStatus.PENDING ∧
    (Job.new id payload now).payload = payload ∧
    (Job.new id payload now).get_timestamp = now ∧
    (Job.new id payload now).get_heartbeat = now ∧
    (Job.new id payload now).get_timestamp = (Job.new id payload now).get_heartbeat := by
  refine ⟨rfl, rfl, rfl, rfl, rfl, rfl⟩

/-- C1: for every queue state and every id, `get(id)` scans the store in
insertion order and returns a copy of the first job whose id matches: the
result is `find?` of the id predicate, any returned job is a matching job
preceded only by non-matching jobs (so with duplicate ids the
earliest-enqueued match is returned), and the result is `none` exactly when
no stored job matches. -/
theorem get_first_match (q : InMemQueue) (id : Nat) :
    ((InMemQueue.get q id).1 = q.find? (fun job => job.id == id)) ∧
    (∀ j : Job, (InMemQueue.get q id).1 = some j →
      j.id = id ∧ ∃ l1 l2, q = l1 ++ j :: l2 ∧ ∀ x ∈ l1, x.id ≠ id) ∧
    ((InMemQueue.get q id).1 = none ↔ ∀ j ∈ q, j.id ≠ id) := by
  refine ⟨get_fst_eq_find q id, ?_, get_fst_eq_none_iff q id⟩
  intro j hj
  unfold InMemQueue.get at hj
  cases hfi : q.findIdx? (fun job => job.id == id) with
  | none =>
    rw [hfi] at hj
    simp at hj
  | some pos =>
    rw [hfi] at hj
    simp only at hj
    obtain ⟨l1, j2, l2, hq, hlen, hpj, hl1, _⟩ := findIdx_split _ q pos hfi
    have hget : q.get? pos = some j2 := by
      rw [hq, ← hlen]
      rw [List.get?_eq_getElem?, List.getElem?_append_right (le_refl l1.length)]
      simp
    rw [hget] at hj
    cases hj
    refine ⟨by simpa using hpj, l1, l2, hq, ?_⟩
    intro x hx
    exact (matches_false_iff id x).mp (hl1 x hx)

/-- C2: dequeue on a present id succeeds with `Ok(())`, removes exactly the
first matching entry in insertion order while preserving the relative order
of the remaining entries, decreases `len` by exactly one, and — when ids
are pairwise distinct — a subsequent `get(id)` returns `none`. -/
theorem dequeue_present (q : InMemQueue) (id : Nat) (h : ∃ j ∈ q, j.id = id) :
    (InMemQueue.dequeue q id).1 = Except.ok () ∧
    (∃ l1 j l2, q = l1 ++ j :: l2 ∧ j.id = id ∧ (∀ x ∈ l1, x.id ≠ id) ∧
      (InMemQueue.dequeue q id).2 = l1 ++ l2) ∧
    InMemQueue.len (InMemQueue.dequeue q id).2 + 1 = InMemQueue.len q ∧
    (q.Pairwise (fun a b => a.id ≠ b.id) →
      (InMemQueue.get (InMemQueue.dequeue q id).2 id).1 = none) := by
  have hne : q.findIdx? (fun job => job.id == id) ≠ none := by
    intro hnone
    rw [List.findIdx?_eq_none_iff] at hnone
    obtain ⟨j, hjq, hjid⟩ := h
    have := hnone j hjq
    simp [hjid] at this
  cases hfi : q.findIdx? (fun job => job.id == id) with
  | none => exact absurd hfi hne
  | some pos =>
    obtain ⟨l1, j, l2, hq, hlen, hpj, hl1, her⟩ := findIdx_split _ q pos hfi
    have hdq : InMemQueue.dequeue q id = (Except.ok (), l1 ++ l2) := by
      unfold InMemQueue.dequeue
      rw [hfi]
      simp [her]
    have hjid : j.id = id := by simpa using hpj
    have hl1' : ∀ x ∈ l1, x.id ≠ id := fun x hx => (matches_false_iff id x).mp (hl1 x hx)
    refine ⟨by rw [hdq], ⟨l1, j, l2, hq, hjid, hl1', by rw [hdq]⟩, ?_, ?_⟩
    · rw [hdq, hq]
      unfold InMemQueue.len
      simp
      omega
    · intro hpw
      rw [hdq]
      apply (get_fst_eq_none_iff (l1 ++ l2) id).mpr
      intro x hx
      rcases List.mem_append.mp hx with hx | hx
      · exact hl1' x hx
      · rw [hq] at hpw
        have hcons := (List.pairwise_append.mp hpw).2.1
        have hne2 := (List.pairwise_cons.mp hcons).1 x hx
        rw [hjid] at hne2
        exact fun hxeq => hne2 hxeq.symm

/-- C3: a successful `enqueue(j)` returns `Ok(())`, appends `j` at the tail
of the store, increases `len` by exactly one, and makes a job with `j`'s id
visible to subsequent `get` and `dequeue` calls. -/
theorem enqueue_appends (q : InMemQueue) (j : Job) :
    (InMemQueue.enqueue q j).1 = Except.ok () ∧
    (InMemQueue.enqueue q j).2 = q ++ [j] ∧
    InMemQueue.len (InMemQueue.enqueue q j).2 = InMemQueue.len q + 1 ∧
    (∃ j2, (InMemQueue.get (InMemQueue.enqueue q j).2 j.id).1 = some j2 ∧
      j2.id = j.id) ∧
    (InMemQueue.dequeue (InMemQueue.enqueue q j).2 j.id).1 = Except.ok () := by
  have hmem : j ∈ q ++ [j] := List.mem_append_right q (List.mem_singleton_self j)
  have hnn : (InMemQueue.get (q ++ [j]) j.id).1 ≠ none := by
    intro hnone
    exact (get_fst_eq_none_iff (q ++ [j]) j.id).mp hnone j hmem rfl
  refine ⟨rfl, rfl, by unfold InMemQueue.len InMemQueue.enqueue; simp, ?_, ?_⟩
  · cases hg : (InMemQueue.get (q ++ [j]) j.id).1 with
    | none => exact absurd hg hnn
    | some j2 =>
      refine ⟨j2, hg, ?_⟩
      rw [get_fst_eq_find] at hg
      simpa using List.find?_some hg
  · have hfne : (q ++ [j]).findIdx? (fun job => job.id == j.id) ≠ none := by
      intro hnone
      rw [List.findIdx?_eq_none_iff] at hnone
      have := hnone j hmem
      simp at this
    cases hfi : (q ++ [j]).findIdx? (fun job => job.id == j.id) with
    | none => exact absurd hfi hfne
    | some pos =>
      show (InMemQueue.dequeue (q ++ [j]) j.id).1 = Except.ok ()
      unfold InMemQueue.dequeue
      rw [hfi]

/-- C2 witness: on the concrete store `[Job 1, Job 2]`, dequeueing id 1
succeeds. -/
theorem dequeue_present_witness :
    (InMemQueue.dequeue [Job.new 1 [] 0, Job.new 2 [] 0] 1).1 = Except.ok () :=
  (dequeue_present [Job.new 1 [] 0, Job.new 2 [] 0] 1 (by decide)).1

/-- C4: dequeue on an id not present fails with the not-found error carrying
the requested id, and leaves the store (hence `len`) unchanged. -/
theorem dequeue_absent (q : InMemQueue) (id : Nat) (h : ∀ j ∈ q, j.id ≠ id) :
    InMemQueue.dequeue q id =
      (Except.error ("Job with ID " ++ toString id ++ " not found"), q) ∧
    InMemQueue.len (InMemQueue.dequeue q id).2 = InMemQueue.len q := by
  have hfi : q.findIdx? (fun job => job.id == id) = none := by
    rw [List.findIdx?_eq_none_iff]
    intro x hx
    exact (matches_false_iff id x).mpr (h x hx)
  constructor
  · unfold InMemQueue.dequeue
    rw [hfi]
  · unfold InMemQueue.dequeue
    rw [hfi]

/-- C4 witness: on the concrete store `[Job 1]`, dequeueing the absent id 2
fails with the not-found error naming id 2 and leaves the store as it was. -/
theorem dequeue_absent_witness :
    InMemQueue.dequeue [Job.new 1 [] 0] 2 =
      (Except.error ("Job with ID " ++ toString 2 ++ " not found"),
        [Job.new 1 [] 0]) :=
  (dequeue_absent [Job.new 1 [] 0] 2 (by decide)).1

/-- C5: at construction `timestamp = heartbeat`; and under a monotone clock
(the new reading is at least the stored heartbeat), `update_heartbeat` never
moves the heartbeat backward and preserves `timestamp ≤ heartbeat`. -/
theorem heartbeat_invariant (id : Nat) (payload : List Nat) (now : Nat)
    (j : Job) (now2 : Nat) (hinv : j.timestamp ≤ j.heartbeat)
    (hclock : j.heartbeat ≤ now2) :
    (Job.new id payload now).timestamp = (Job.new id payload now).heartbeat ∧
    j.heartbeat ≤ (j.update_heartbeat now2).heartbeat ∧
    (j.update_heartbeat now2).timestamp ≤ (j.update_heartbeat now2).heartbeat :=
  ⟨rfl, hclock, le_trans hinv hclock⟩

/-- C5 witness: concrete construction at time 5 and a heartbeat update of a
job created at time 3 with a clock reading of 9. -/
theorem heartbeat_invariant_witness :
    (Job.new 7 [1, 2] 5).timestamp = (Job.new 7 [1, 2] 5).heartbeat ∧
    (Job.new 2 [] 3).heartbeat ≤ ((Job.new 2 [] 3).update_heartbeat 9).heartbeat ∧
    ((Job.new 2 [] 3).update_heartbeat 9).timestamp ≤
      ((Job.new 2 [] 3).update_heartbeat 9).heartbeat :=
  heartbeat_invariant 7 [1, 2] 5 (Job.new 2 [] 3) 9 (by decide) (by decide)

/-- C6: `get` and `len` never fail: `get` always returns either a matching
stored job or `none` (the latter exactly when no job matches), and `len`
always returns the current count of stored jobs. -/
theorem get_len_total (q : InMemQueue) (id : Nat) :
    (match (InMemQueue.get q id).1 with
     | some j => j.id = id ∧ j ∈ q
     | none => ∀ j ∈ q, j.id ≠ id) ∧
    InMemQueue.len q = q.length := by
  refine ⟨?_, rfl⟩
  cases hg : (InMemQueue.get q id).1 with
  | none => exact (get_fst_eq_none_iff q id).mp hg
  | some j =>
    rw [get_fst_eq_find] at hg
    exact ⟨by simpa using List.find?_some hg, List.mem_of_find?_eq_some hg⟩

/-- C7: `get` is non-destructive: any number of `get(id)` calls leaves the
store, and hence `len`, unchanged. -/
theorem get_nondestructive (q : InMemQueue) (id : Nat) (n : Nat) :
    (fun s => (InMemQueue.get s id).2)^[n] q = q ∧
    InMemQueue.len ((fun s => (InMemQueue.get s id).2)^[n] q) =
      InMemQueue.len q := by
  have h : (fun s => (InMemQueue.get s id).2)^[n] q = q :=
    Function.iterate_fixed (get_snd_eq q id) n
  exact ⟨h, by rw [h]⟩

/-- C9: copy-on-read isolation: `get` leaves the store unchanged, the
caller's `update_heartbeat` on the fetched copy produces a locally mutated
value, and a later `get(id)` on the post-`get` store still observes the
originally stored job. -/
theorem copy_on_read_isolation (q : InMemQueue) (id : Nat) (j : Job)
    (now : Nat) (h : (InMemQueue.get q id).1 = some j) :
    (InMemQueue.get q id).2 = q ∧
    (Job.update_heartbeat j now).heartbeat = now ∧
    (InMemQueue.get (InMemQueue.get q id).2 id).1 = some j := by
  refine ⟨get_snd_eq q id, rfl, ?_⟩
  rw [get_snd_eq q id]
  exact h

/-- C9 witness: on the store `[Job 1]`, fetch job 1, update the copy's
heartbeat to 9; the store and a later `get 1` are unchanged. -/
theorem copy_on_read_isolation_witness :
    (InMemQueue.get [Job.new 1 [] 0] 1).2 = [Job.new 1 [] 0] ∧
    ((Job.new 1 [] 0).update_heartbeat 9).heartbeat = 9 ∧
    (InMemQueue.get (InMemQueue.get [Job.new 1 [] 0] 1).2 1).1 =
      some (Job.new 1 [] 0) :=
  copy_on_read_isolation [Job.new 1 [] 0] 1 (Job.new 1 [] 0) 9 (by decide)

/-- C10: a freshly constructed queue is empty: `len` is 0, `get` returns
`None` for every id, and `dequeue` fails with the not-found error carrying
that id, for every id. -/
theorem fresh_queue_empty :
    InMemQueue.len InMemQueue.new = 0 ∧
    (∀ id : Nat, (InMemQueue.get InMemQueue.new id).1 = none) ∧
    (∀ id : Nat, (InMemQueue.dequeue InMemQueue.new id).1 =
      Except.error ("Job with ID " ++ toString id ++ " not found")) := by
  refine ⟨rfl, fun id => rfl, fun id => rfl⟩

end Foxtail
